import Mathlib

/-!
Verification development for the `utfbom` Go package (github.com/slash3b/utfbom).

The package detects, strips and skips Unicode Byte Order Marks (BOMs).
The repository contains three revisions of the package:
  * `utfbom.go` — the eager variant: `Skip` runs `readBOM`/`detectUtf` at
    construction time and the `Reader` drains a buffered remainder;
  * an earlier revision (here namespace `P1`) — a `bufio`-based lazy `Reader`
    whose first `Read` peeks 4 bytes and discards the detected marker;
  * another revision (here namespace `P2`) — a lazy `Reader` that reads into a
    scratch buffer on the first call and requires a destination of at least
    4 bytes.

Bytes are modelled as `Nat` (Go `byte` values 0..255; no arithmetic is
performed on them, only equality tests, so no modular reduction is needed).
Go's `error` values are modelled by the inductive `Err`; `errors.Join(a, b)`
is modelled by `Err.joined a b`.  Go loops that are not structurally bounded
take an explicit `fuel` argument and return `none` when the fuel runs out.
-/

set_option autoImplicit false

/-- `Encoding` from `utfbom.go`: a character encoding standard
(`Unknown` is the zero value). -/
inductive Encoding where
  | Unknown
  | UTF8
  | UTF16BigEndian
  | UTF16LittleEndian
  | UTF32BigEndian
  | UTF32LittleEndian
deriving DecidableEq, Repr

/-- Model of the Go `error` values that appear in the package and its tests.
`joined a b` models `errors.Join(a, b)`; `other k` stands for an arbitrary
caller-supplied error such as `io.ErrClosedPipe` in the tests. -/
inductive Err where
  | eof
  | unexpectedEOF
  | noProgress
  | shortBuffer
  | errRead
  | initBufferReadError
  | other (k : Nat)
  | joined (a b : Err)
deriving DecidableEq, Repr

/-- BOM constant `utf8BOM = [3]byte{0xef, 0xbb, 0xbf}`. -/
def utf8BOM : List Nat := [0xef, 0xbb, 0xbf]

/-- BOM constant `utf16BEBOM = [2]byte{0xfe, 0xff}`. -/
def utf16BEBOM : List Nat := [0xfe, 0xff]

/-- BOM constant `utf16LEBOM = [2]byte{0xff, 0xfe}`. -/
def utf16LEBOM : List Nat := [0xff, 0xfe]

/-- BOM constant `utf32BEBOM = [4]byte{0x00, 0x00, 0xfe, 0xff}`. -/
def utf32BEBOM : List Nat := [0x00, 0x00, 0xfe, 0xff]

/-- BOM constant `utf32LEBOM = [4]byte{0xff, 0xfe, 0x00, 0x00}`. -/
def utf32LEBOM : List Nat := [0xff, 0xfe, 0x00, 0x00]

/-- `Encoding.Len` from the earlier revisions: the number of BOM bytes of an
encoding (`0` for `Unknown`). -/
def Encoding.Len : Encoding → Nat
  | .Unknown => 0
  | .UTF8 => 3
  | .UTF16BigEndian => 2
  | .UTF16LittleEndian => 2
  | .UTF32BigEndian => 4
  | .UTF32LittleEndian => 4

/-- `DetectEncoding` from `utfbom.go` (identical logic in all three
revisions): inspects the initial bytes and returns the detected encoding.
The elementwise byte comparisons of `utfbom.go` under the length guards are
written with `List.isPrefixOf`, exactly as the `bytes.HasPrefix` calls of the
earlier revision. -/
def DetectEncoding (ibs : List Nat) : Encoding :=
  if ibs.length < 2 then .Unknown
  else if 4 ≤ ibs.length ∧ utf32BEBOM.isPrefixOf ibs then .UTF32BigEndian
  else if 4 ≤ ibs.length ∧ utf32LEBOM.isPrefixOf ibs then .UTF32LittleEndian
  else if 3 ≤ ibs.length ∧ utf8BOM.isPrefixOf ibs then .UTF8
  else if utf16BEBOM.isPrefixOf ibs then .UTF16BigEndian
  else if utf16LEBOM.isPrefixOf ibs then .UTF16LittleEndian
  else .Unknown

/-- Modelled from the spec (§4.1): `lookup(bytes) -> Encoding` returns the
encoding whose marker is a prefix of `bytes`, preferring the longest matching
marker (4-byte candidates before 3-byte before 2-byte), and returns
Unspecified if no marker matches or `bytes` has fewer than 2 bytes.  This is
the specification-side definition compared against `DetectEncoding`. -/
def lookupSpec (b : List Nat) : Encoding :=
  if b.length < 2 then .Unknown
  else if utf32BEBOM.isPrefixOf b then .UTF32BigEndian
  else if utf32LEBOM.isPrefixOf b then .UTF32LittleEndian
  else if utf8BOM.isPrefixOf b then .UTF8
  else if utf16BEBOM.isPrefixOf b then .UTF16BigEndian
  else if utf16LEBOM.isPrefixOf b then .UTF16LittleEndian
  else .Unknown

/-- `Trim` from the earlier revisions (identical in both): detects the
encoding and drops its BOM length from the front, returning the input
unchanged when detection yields `Unknown`. -/
def Trim (input : List Nat) : List Nat × Encoding :=
  let enc := DetectEncoding input
  if enc = .Unknown then (input, enc)
  else (input.drop enc.Len, enc)

/-- The marker byte sequence of an encoding, assembled from the package's BOM
constants and `Encoding.Len` (the spec's `markerBytes`); used to state the
claims about sources whose content starts with a given marker. -/
def bomOf : Encoding → List Nat
  | .Unknown => []
  | .UTF8 => utf8BOM
  | .UTF16BigEndian => utf16BEBOM
  | .UTF16LittleEndian => utf16LEBOM
  | .UTF32BigEndian => utf32BEBOM
  | .UTF32LittleEndian => utf32LEBOM

/-! ### Byte sources

The tests exercise the readers through `sliceReader` (returns as much of the
remaining input as fits together with a same-call error once the input is
exhausted), `iotest.OneByteReader` (at most one byte per call) and
`zeroReader` (always `(0, nil)`).  `Src` packages those three behaviours. -/

/-- How a source delivers its bytes: all available bytes at once
(`sliceReader`), one byte per call (`iotest.OneByteReader` wrapping a
`sliceReader`), or no bytes and no error ever (`zeroReader`). -/
inductive SrcMode where
  | full
  | oneByte
  | zero
deriving DecidableEq, Repr

/-- A byte-input source: its delivery mode, remaining bytes, and the error it
reports once the bytes are exhausted (`Err.eof` for a well-behaved source,
another error to model the tests' `io.ErrClosedPipe` cases). -/
structure Src where
  mode : SrcMode
  data : List Nat
  finalErr : Err
deriving DecidableEq, Repr

/-- `sliceReader.Read` from the test file: a zero-length destination returns
immediately; an exhausted source returns its configured error; otherwise it
copies as many bytes as fit and reports the configured error in the same call
if that read exhausted the input. -/
def sliceRead (s : Src) (cap : Nat) : List Nat × Option Err × Src :=
  if cap = 0 then ([], none, s)
  else if s.data.length = 0 then ([], some s.finalErr, s)
  else
    let n := min cap s.data.length
    let rest := s.data.drop n
    (s.data.take n, if rest.length = 0 then some s.finalErr else none,
      { s with data := rest })

/-- One `Read` call on a source.  `oneByte` mode wraps `sliceRead` exactly as
`iotest.OneByteReader` does (`r.Read(p[:1])`); `zero` mode always returns
`(0, nil)`. -/
def srcRead (s : Src) (cap : Nat) : List Nat × Option Err × Src :=
  match s.mode with
  | .zero => ([], none, s)
  | .full => sliceRead s cap
  | .oneByte => sliceRead s (min cap 1)

/-! ### The `utfbom.go` variant: `readBOM`, `detectUtf`, `Skip`, `Reader` -/

/-- `maxConsecutiveEmptyReads = 100` from `utfbom.go`. -/
def maxConsecutiveEmptyReads : Nat := 100

/-- `nilIfEmpty` from `utfbom.go`: an empty slice becomes `nil` (`none`). -/
def nilIfEmpty (buf : List Nat) : Option (List Nat) :=
  if buf.length > 0 then some buf else none

/-- `isUTF32BigEndianBOM4` from `utfbom.go`.  The Go function indexes
`buf[0..3]`; every caller guards `len(buf) >= 4`, so the catch-all `false`
branch is unreachable there. -/
def isUTF32BigEndianBOM4 : List Nat → Bool
  | b0 :: b1 :: b2 :: b3 :: _ => b0 == 0x00 && b1 == 0x00 && b2 == 0xFE && b3 == 0xFF
  | _ => false

/-- `isUTF32LittleEndianBOM4` from `utfbom.go`. -/
def isUTF32LittleEndianBOM4 : List Nat → Bool
  | b0 :: b1 :: b2 :: b3 :: _ => b0 == 0xFF && b1 == 0xFE && b2 == 0x00 && b3 == 0x00
  | _ => false

/-- `isUTF8BOM3` from `utfbom.go` (callers guard `len(buf) > 2`). -/
def isUTF8BOM3 : List Nat → Bool
  | b0 :: b1 :: b2 :: _ => b0 == 0xEF && b1 == 0xBB && b2 == 0xBF
  | _ => false

/-- `isUTF16BigEndianBOM2` from `utfbom.go` (callers guard `len(buf) >= 2`). -/
def isUTF16BigEndianBOM2 : List Nat → Bool
  | b0 :: b1 :: _ => b0 == 0xFE && b1 == 0xFF
  | _ => false

/-- `isUTF16LittleEndianBOM2` from `utfbom.go`. -/
def isUTF16LittleEndianBOM2 : List Nat → Bool
  | b0 :: b1 :: _ => b0 == 0xFF && b1 == 0xFE
  | _ => false

/-- The loop of `readBOM` from `utfbom.go`: reads up to 4 bytes, counting
consecutive zero-byte no-error reads and replacing the error with
`io.ErrNoProgress` when `maxConsecutiveEmptyReads` is reached.  `fuel` bounds
the number of loop iterations (each iteration makes one source `Read`);
`none` means the fuel ran out before the loop exited. -/
def readBOMAux : Nat → List Nat → Nat → Src → Option (List Nat × Option Err × Src)
  | 0, _, _, _ => none
  | fuel + 1, buf, nEmpty, rd =>
    if buf.length < 4 then
      let r := srcRead rd (4 - buf.length)
      let step :=
        if 0 < r.1.length then ((0 : Nat), r.2.1)
        else if maxConsecutiveEmptyReads ≤ nEmpty + 1 then (nEmpty + 1, some Err.noProgress)
        else (nEmpty + 1, r.2.1)
      match step.2 with
      | some e => some (buf ++ r.1, some e, r.2.2)
      | none => readBOMAux fuel (buf ++ r.1) step.1 r.2.2
    else some (buf, none, rd)

/-- `readBOM` from `utfbom.go`: read as many BOM bytes as possible (at most
4) from the source. -/
def readBOM (fuel : Nat) (rd : Src) : Option (List Nat × Option Err × Src) :=
  readBOMAux fuel [] 0 rd

/-- The classification part of `detectUtf` from `utfbom.go`, applied to the
bytes and error produced by `readBOM`.  Returns the encoding and the
`nilIfEmpty`-normalised leftover bytes. -/
def detectUtfClassify (buf : List Nat) (err : Option Err) :
    Encoding × Option (List Nat) :=
  if 4 ≤ buf.length ∧ isUTF32BigEndianBOM4 buf then
    (.UTF32BigEndian, nilIfEmpty (buf.drop 4))
  else if 4 ≤ buf.length ∧ isUTF32LittleEndianBOM4 buf then
    (.UTF32LittleEndian, nilIfEmpty (buf.drop 4))
  else if 2 < buf.length ∧ isUTF8BOM3 buf then
    (.UTF8, nilIfEmpty (buf.drop 3))
  else if (err ≠ none ∧ err ≠ some Err.eof) ∨ buf.length < 2 then
    (.Unknown, nilIfEmpty buf)
  else if isUTF16BigEndianBOM2 buf then
    (.UTF16BigEndian, nilIfEmpty (buf.drop 2))
  else if isUTF16LittleEndianBOM2 buf then
    (.UTF16LittleEndian, nilIfEmpty (buf.drop 2))
  else (.Unknown, nilIfEmpty buf)

/-- `detectUtf` from `utfbom.go`: run `readBOM`, classify the bytes, and pass
the read error through unchanged. -/
def detectUtf (fuel : Nat) (rd : Src) :
    Option (Encoding × Option (List Nat) × Option Err × Src) :=
  match readBOM fuel rd with
  | none => none
  | some (buf, err, rd') =>
    let c := detectUtfClassify buf err
    some (c.1, c.2, err, rd')

/-- `Reader` from `utfbom.go`: the wrapped source, buffered data, last error
and detected encoding. -/
structure Reader where
  rd : Src
  buf : Option (List Nat)
  err : Option Err
  enc : Encoding
deriving DecidableEq, Repr

/-- `Reader.Read` from `utfbom.go`: a zero-length destination is a no-op;
with no buffered data a stored error is returned once (`readErr` clears it)
or the read is delegated to the source; otherwise buffered bytes are copied
out first. -/
def Reader.Read (r : Reader) (cap : Nat) : List Nat × Option Err × Reader :=
  if cap = 0 then ([], none, r)
  else
    match r.buf with
    | none =>
      match r.err with
      | some e => ([], some e, { r with err := none })
      | none =>
        let s := srcRead r.rd cap
        (s.1, s.2.1, { r with rd := s.2.2 })
    | some l =>
      let n := min cap l.length
      (l.take n, none, { r with buf := nilIfEmpty (l.drop n) })

/-- The argument of Go's `Skip`: an `io.Reader` that is either already a
`*Reader` (recognised by the type assertion in `Skip`) or an arbitrary
source. -/
inductive SkipInput where
  | rdr (b : Reader)
  | src (s : Src)

/-- `Skip` from `utfbom.go`: an input that is already a `Reader` is returned
as is together with its stored encoding; otherwise `detectUtf` runs and its
results populate a fresh `Reader`. -/
def Skip (fuel : Nat) : SkipInput → Option (Reader × Encoding)
  | .rdr b => some (b, b.enc)
  | .src rd =>
    match detectUtf fuel rd with
    | none => none
    | some (enc, left, err, rd') =>
      some ({ rd := rd', buf := left, err := err, enc := enc }, enc)

/-- Reading a `Reader` to exhaustion (the `io.ReadAll` loops of the tests):
repeated `Read` calls with destination capacity `cap`, accumulating the bytes
until a call reports an error, which is returned alongside the bytes.
`fuel` bounds the number of calls. -/
def readAllAux : Nat → Nat → Reader → List Nat → Option (List Nat × Err)
  | 0, _, _, _ => none
  | fuel + 1, cap, r, acc =>
    let s := r.Read cap
    match s.2.1 with
    | some e => some (acc ++ s.1, e)
    | none => readAllAux fuel cap s.2.2 (acc ++ s.1)

/-- Read everything from a `Reader`, starting from an empty accumulator. -/
def readAll (fuel cap : Nat) (r : Reader) : Option (List Nat × Err) :=
  readAllAux fuel cap r []

/-! ### The `bufio`-based revision (namespace `P1`) -/

namespace P1

/-- Model of `errors.Is`: does the error tree contain the target? -/
def errIs : Err → Err → Bool
  | .joined a b, t => errIs a t || errIs b t
  | e, t => e == t

/-- A `bufio.Reader` wrapped around a source: the internal read-ahead buffer
and the underlying source. -/
structure BufioRd where
  buffered : List Nat
  src : Src
deriving DecidableEq, Repr

/-- The fill loop behind `bufio.Reader.Peek`: read from the source until at
least `n` bytes are buffered or the source reports an error.  `fuel` bounds
the iterations, standing in for `bufio`'s own 100-empty-reads guard; running
out of fuel reports `io.ErrNoProgress` exactly as `bufio.Reader.fill` does. -/
def bfill : Nat → Nat → BufioRd → BufioRd × Option Err
  | 0, _, br => (br, some Err.noProgress)
  | fuel + 1, n, br =>
    if n ≤ br.buffered.length then (br, none)
    else
      let s := srcRead br.src 4096
      let br' : BufioRd := { buffered := br.buffered ++ s.1, src := s.2.2 }
      match s.2.1 with
      | some e => (br', some e)
      | none => bfill fuel n br'

/-- `bufio.Reader.Peek n`: returns the next `n` buffered bytes without
consuming them, with an error exactly when fewer than `n` are available. -/
def bpeek (fuel n : Nat) (br : BufioRd) : List Nat × Option Err × BufioRd :=
  let f := bfill fuel n br
  (f.1.buffered.take n,
    if f.1.buffered.length < n then f.2 else none, f.1)

/-- `bufio.Reader.Read`: serve buffered bytes first; with an empty buffer
delegate one read to the source. -/
def bRead (br : BufioRd) (cap : Nat) : List Nat × Option Err × BufioRd :=
  if br.buffered.length = 0 then
    let s := srcRead br.src cap
    (s.1, s.2.1, { br with src := s.2.2 })
  else
    let n := min cap br.buffered.length
    (br.buffered.take n, none, { br with buffered := br.buffered.drop n })

/-- `Reader` of the `bufio`-based revision: the buffered reader, the
`sync.Once` state, and the public `Enc` field (`Unknown` until the first
read). -/
structure Reader where
  rd : BufioRd
  onceDone : Bool
  Enc : Encoding
deriving DecidableEq, Repr

/-- `NewReader` of the `bufio`-based revision. -/
def NewReader (s : Src) : Reader :=
  { rd := { buffered := [], src := s }, onceDone := false, Enc := .Unknown }

/-- The detection half of the `once.Do` body: set `Enc` from the peeked
bytes and discard the marker from the buffered reader when one was found
(`bufio.Discard` cannot fail here because the marker bytes are buffered). -/
def detectBody (bytes : List Nat) (r : Reader) : Option Err × Reader :=
  let enc := DetectEncoding bytes
  if enc = .Unknown then (none, { r with onceDone := true, Enc := enc })
  else
    (none,
      { r with
        onceDone := true
        Enc := enc
        rd := { r.rd with buffered := r.rd.buffered.drop enc.Len } })

/-- The `once.Do` body of `Reader.Read`: peek up to 4 bytes; a peek error
other than EOF-style errors is wrapped as `errors.Join(ErrRead, err)`;
otherwise detection runs on the peeked bytes. -/
def onceBody (r : Reader) : Option Err × Reader :=
  if r.onceDone then (none, r)
  else
    let p := bpeek 101 4 r.rd
    match p.2.1 with
    | some e =>
      if errIs e .eof || errIs e .unexpectedEOF then
        detectBody p.1 { r with rd := p.2.2 }
      else (some (.joined .errRead e), { r with rd := p.2.2, onceDone := true })
    | none => detectBody p.1 { r with rd := p.2.2 }

/-- `Reader.Read` of the `bufio`-based revision: zero-length destinations
return immediately (before the `once.Do`); the first substantive call runs
the detection body, and every call then delegates to the buffered reader. -/
def Reader.Read (r : Reader) (cap : Nat) : List Nat × Option Err × Reader :=
  if cap = 0 then ([], none, r)
  else
    let o := onceBody r
    match o.1 with
    | some e => ([], some e, o.2)
    | none =>
      let b := bRead o.2.rd cap
      (b.1, b.2.1, { o.2 with rd := b.2.2 })

end P1

/-! ### The scratch-buffer revision (namespace `P2`) -/

namespace P2

/-- `Reader` of the scratch-buffer revision: the wrapped source, the
`sync.Once` state and the public `Enc` field. -/
structure Reader where
  rd : Src
  onceDone : Bool
  Enc : Encoding
deriving DecidableEq, Repr

/-- `NewReader` of the scratch-buffer revision. -/
def NewReader (s : Src) : Reader :=
  { rd := s, onceDone := false, Enc := .Unknown }

/-- `Reader.Read` of the scratch-buffer revision: zero-length destinations
return immediately; the first substantive call rejects destinations shorter
than 4 bytes with `errors.Join(ErrInitBufferReadError, io.ErrShortBuffer)`,
otherwise reads into a zero-filled scratch buffer of the destination's
length, trims it, and delivers the trimmed bytes; later calls (and a first
call that produced no bytes and no error) delegate to the source.
`bytesRead` is `n - enc.Len()` as an `int` in Go; when the zero padding of
the scratch buffer completes a marker longer than the bytes actually read,
that count is negative and the Go slice expression would panic — here the
natural-number subtraction truncates at zero instead (no claim exercises
that path). -/
def Reader.Read (r : Reader) (cap : Nat) : List Nat × Option Err × Reader :=
  if cap = 0 then ([], none, r)
  else
    let o :=
      if r.onceDone then (([] : List Nat), (none : Option Err), r)
      else
        if cap < 4 then
          ([], some (Err.joined .initBufferReadError .shortBuffer),
            { r with onceDone := true })
        else
          let s := srcRead r.rd cap
          match s.2.1 with
          | some e =>
            ([], some (Err.joined .initBufferReadError e),
              { r with onceDone := true, rd := s.2.2 })
          | none =>
            let tmpbuf := s.1 ++ List.replicate (cap - s.1.length) 0
            let t := Trim tmpbuf
            let bytesRead := s.1.length - t.2.Len
            (t.1.take bytesRead, none,
              { rd := s.2.2, onceDone := true, Enc := t.2 })
    if 0 < o.1.length ∨ o.2.1 ≠ none then (o.1, o.2.1, o.2.2)
    else
      let s2 := srcRead o.2.2.rd cap
      (s2.1, s2.2.1, { o.2.2 with rd := s2.2.2 })

end P2

/-- Model of `errors.Is(e, io.ErrShortBuffer)`: whether an error value
contains `shortBuffer` anywhere in its join tree. -/
def hasShortBuffer : Err → Bool
  | .shortBuffer => true
  | .joined a b => hasShortBuffer a || hasShortBuffer b
  | _ => false

/-! ### Helper lemmas -/

theorem natBeq_comm (a b : Nat) : (a == b) = (b == a) := by
  rcases Decidable.em (a = b) with h | h
  · subst h; rfl
  · rw [beq_eq_false_iff_ne.mpr h, beq_eq_false_iff_ne.mpr (Ne.symm h)]

theorem isPrefixOf_length_le :
    ∀ (m l : List Nat), m.isPrefixOf l = true → m.length ≤ l.length
  | [], _, _ => Nat.zero_le _
  | _ :: _, [], h => by simp [List.isPrefixOf] at h
  | a :: as, b :: bs, h => by
    simp only [List.isPrefixOf, Bool.and_eq_true] at h
    simpa using isPrefixOf_length_le as bs h.2

theorem isPrefixOf_decomp :
    ∀ (m l : List Nat), m.isPrefixOf l = true → m ++ l.drop m.length = l
  | [], l, _ => rfl
  | _ :: _, [], h => by simp [List.isPrefixOf] at h
  | a :: as, b :: bs, h => by
    simp only [List.isPrefixOf, Bool.and_eq_true, beq_iff_eq] at h
    simpa [h.1] using isPrefixOf_decomp as bs h.2

theorem isPrefixOf_take :
    ∀ (m l : List Nat) (n : Nat), m.length ≤ n →
      m.isPrefixOf (l.take n) = m.isPrefixOf l
  | [], _, _, _ => by simp [List.isPrefixOf]
  | _ :: _, [], _, _ => by simp
  | a :: as, b :: bs, 0, h => by simp at h
  | a :: as, b :: bs, n + 1, h => by
    simp only [List.take_succ_cons, List.isPrefixOf]
    rw [isPrefixOf_take as bs n (by simpa using h)]


theorem readBOM_slice (m : SrcMode) (hm : m = .full ∨ m = .oneByte)
    (d : List Nat) (fe : Err) :
    readBOM 10 ⟨m, d, fe⟩ =
      some (d.take 4, if d.length ≤ 4 then some fe else none, ⟨m, d.drop 4, fe⟩) := by
  rcases hm with rfl | rfl <;>
    rcases d with _ | ⟨a, _ | ⟨b, _ | ⟨c, _ | ⟨e, _ | ⟨f, rest⟩⟩⟩⟩⟩ <;>
      simp [readBOM, readBOMAux, srcRead, sliceRead, maxConsecutiveEmptyReads]

theorem srcRead_progress (m : SrcMode) (hm : m = .full ∨ m = .oneByte)
    (d : List Nat) (hd : d ≠ []) (fe : Err) (cap : Nat) (hcap : 1 ≤ cap) :
    ∃ n, 1 ≤ n ∧ n ≤ cap ∧
      srcRead ⟨m, d, fe⟩ cap =
        (d.take n, if (d.drop n).length = 0 then some fe else none,
          ⟨m, d.drop n, fe⟩) := by
  have hdl : 0 < d.length := List.length_pos.mpr hd
  rcases hm with rfl | rfl
  · refine ⟨min cap d.length, ?_, Nat.min_le_left _ _, ?_⟩
    · exact Nat.le_min.mpr ⟨hcap, hdl⟩
    · simp [srcRead, sliceRead, show ¬ cap = 0 by omega, show ¬ d.length = 0 by omega]
  · refine ⟨min (min cap 1) d.length, ?_, ?_, ?_⟩
    · exact Nat.le_min.mpr ⟨Nat.le_min.mpr ⟨hcap, Nat.le_refl 1⟩, hdl⟩
    · exact Nat.le_trans (Nat.min_le_left _ _) (Nat.min_le_left _ _)
    · simp [srcRead, sliceRead, show ¬ min cap 1 = 0 by omega,
        show ¬ d.length = 0 by omega]

theorem readAllAux_err (cap : Nat) (hcap : 1 ≤ cap) :
    ∀ (fuel : Nat) (l : List Nat) (er : Err) (s : Src) (enc : Encoding)
      (acc : List Nat), l.length + 1 ≤ fuel →
      readAllAux fuel cap { rd := s, buf := nilIfEmpty l, err := some er, enc := enc } acc =
        some (acc ++ l, er) := by
  intro fuel
  induction fuel with
  | zero => intro l er s enc acc h; omega
  | succ fuel ih =>
    intro l er s enc acc h
    cases l with
    | nil =>
      simp [readAllAux, Reader.Read, nilIfEmpty, show ¬ cap = 0 by omega]
    | cons x xs =>
      have hx : nilIfEmpty (x :: xs) = some (x :: xs) := by simp [nilIfEmpty]
      have hn : 1 ≤ min cap (x :: xs).length := by
        simp [List.length_cons]; omega
      simp only [readAllAux, Reader.Read, hx, show ¬ cap = 0 by omega, if_neg,
        if_false]
      rw [ih ((x :: xs).drop (min cap (x :: xs).length)) er s enc
        (acc ++ (x :: xs).take (min cap (x :: xs).length))
        (by simp only [List.length_drop, List.length_cons] at h ⊢; omega)]
      rw [List.append_assoc, List.take_append_drop]

theorem readAllAux_src (cap : Nat) (hcap : 1 ≤ cap)
    (m : SrcMode) (hm : m = .full ∨ m = .oneByte) :
    ∀ (fuel : Nat) (d : List Nat) (fe : Err) (enc : Encoding) (acc : List Nat),
      d.length + 1 ≤ fuel →
      readAllAux fuel cap { rd := ⟨m, d, fe⟩, buf := none, err := none, enc := enc } acc =
        some (acc ++ d, fe) := by
  intro fuel
  induction fuel with
  | zero => intro d fe enc acc h; omega
  | succ fuel ih =>
    intro d fe enc acc h
    by_cases hd : d = []
    · subst hd
      have hz : srcRead ⟨m, [], fe⟩ cap = ([], some fe, ⟨m, [], fe⟩) := by
        rcases hm with rfl | rfl <;>
          simp [srcRead, sliceRead, show ¬ cap = 0 by omega,
            show ¬ min cap 1 = 0 by omega]
      simp [readAllAux, Reader.Read, hz, show ¬ cap = 0 by omega]
    · obtain ⟨n, hn1, hncap, hs⟩ := srcRead_progress m hm d hd fe cap hcap
      have hd1 : 1 ≤ d.length := List.length_pos.mpr hd
      simp only [readAllAux, Reader.Read, hs, show ¬ cap = 0 by omega, if_neg,
        if_false]
      by_cases hrest : (d.drop n).length = 0
      · simp only [hrest, if_pos]
        have : d.take n = d := by
          simp only [List.length_drop] at hrest
          exact List.take_of_length_le (by omega)
        rw [this]
      · simp only [hrest, if_neg, if_false]
        rw [ih (d.drop n) fe enc (acc ++ d.take n)
          (by simp only [List.length_drop]; omega)]
        rw [List.append_assoc, List.take_append_drop]

theorem readAllAux_buf (cap : Nat) (hcap : 1 ≤ cap)
    (m : SrcMode) (hm : m = .full ∨ m = .oneByte) :
    ∀ (fuel : Nat) (l d : List Nat) (fe : Err) (enc : Encoding) (acc : List Nat),
      l.length + d.length + 2 ≤ fuel →
      readAllAux fuel cap
        { rd := ⟨m, d, fe⟩, buf := nilIfEmpty l, err := none, enc := enc } acc =
        some (acc ++ l ++ d, fe) := by
  intro fuel
  induction fuel with
  | zero => intro l d fe enc acc h; omega
  | succ fuel ih =>
    intro l d fe enc acc h
    cases l with
    | nil =>
      simpa [nilIfEmpty] using
        readAllAux_src cap hcap m hm (fuel + 1) d fe enc acc (by omega)
    | cons x xs =>
      have hx : nilIfEmpty (x :: xs) = some (x :: xs) := by simp [nilIfEmpty]
      simp only [readAllAux, Reader.Read, hx, show ¬ cap = 0 by omega, if_neg,
        if_false]
      rw [ih ((x :: xs).drop (min cap (x :: xs).length)) d fe enc
        (acc ++ (x :: xs).take (min cap (x :: xs).length))
        (by simp only [List.length_drop, List.length_cons] at h ⊢; omega)]
      rw [List.append_assoc acc, List.take_append_drop]

theorem classify_snd (buf : List Nat) (e : Option Err) :
    (detectUtfClassify buf e).2 =
      nilIfEmpty (buf.drop ((detectUtfClassify buf e).1).Len) := by
  unfold detectUtfClassify
  split_ifs <;> simp [Encoding.Len]

theorem classify_Len_le (buf : List Nat) (e : Option Err) :
    ((detectUtfClassify buf e).1).Len ≤ buf.length := by
  unfold detectUtfClassify
  split_ifs with h1 h2 h3 h4 h5 h6 <;> simp [Encoding.Len] <;> omega

theorem is32BE_eq (buf : List Nat) :
    isUTF32BigEndianBOM4 buf = utf32BEBOM.isPrefixOf buf := by
  match buf with
  | [] => rfl
  | [b0] => simp [isUTF32BigEndianBOM4, utf32BEBOM, List.isPrefixOf]
  | [b0, b1] => simp [isUTF32BigEndianBOM4, utf32BEBOM, List.isPrefixOf]
  | [b0, b1, b2] => simp [isUTF32BigEndianBOM4, utf32BEBOM, List.isPrefixOf]
  | b0 :: b1 :: b2 :: b3 :: rest =>
    simp [isUTF32BigEndianBOM4, utf32BEBOM, List.isPrefixOf, Bool.and_assoc,
      natBeq_comm 0x00 b0, natBeq_comm 0x00 b1, natBeq_comm 0xFE b2,
      natBeq_comm 0xFF b3]

theorem is32LE_eq (buf : List Nat) :
    isUTF32LittleEndianBOM4 buf = utf32LEBOM.isPrefixOf buf := by
  match buf with
  | [] => rfl
  | [b0] => simp [isUTF32LittleEndianBOM4, utf32LEBOM, List.isPrefixOf]
  | [b0, b1] => simp [isUTF32LittleEndianBOM4, utf32LEBOM, List.isPrefixOf]
  | [b0, b1, b2] => simp [isUTF32LittleEndianBOM4, utf32LEBOM, List.isPrefixOf]
  | b0 :: b1 :: b2 :: b3 :: rest =>
    simp [isUTF32LittleEndianBOM4, utf32LEBOM, List.isPrefixOf, Bool.and_assoc,
      natBeq_comm 0xFF b0, natBeq_comm 0xFE b1, natBeq_comm 0x00 b2,
      natBeq_comm 0x00 b3]

theorem is8_eq (buf : List Nat) :
    isUTF8BOM3 buf = utf8BOM.isPrefixOf buf := by
  match buf with
  | [] => rfl
  | [b0] => simp [isUTF8BOM3, utf8BOM, List.isPrefixOf]
  | [b0, b1] => simp [isUTF8BOM3, utf8BOM, List.isPrefixOf]
  | b0 :: b1 :: b2 :: rest =>
    simp [isUTF8BOM3, utf8BOM, List.isPrefixOf, Bool.and_assoc,
      natBeq_comm 0xEF b0, natBeq_comm 0xBB b1, natBeq_comm 0xBF b2]

theorem is16BE_eq (buf : List Nat) :
    isUTF16BigEndianBOM2 buf = utf16BEBOM.isPrefixOf buf := by
  match buf with
  | [] => rfl
  | [b0] => simp [isUTF16BigEndianBOM2, utf16BEBOM, List.isPrefixOf]
  | b0 :: b1 :: rest =>
    simp [isUTF16BigEndianBOM2, utf16BEBOM, List.isPrefixOf, Bool.and_assoc,
      natBeq_comm 0xFE b0, natBeq_comm 0xFF b1]

theorem is16LE_eq (buf : List Nat) :
    isUTF16LittleEndianBOM2 buf = utf16LEBOM.isPrefixOf buf := by
  match buf with
  | [] => rfl
  | [b0] => simp [isUTF16LittleEndianBOM2, utf16LEBOM, List.isPrefixOf]
  | b0 :: b1 :: rest =>
    simp [isUTF16LittleEndianBOM2, utf16LEBOM, List.isPrefixOf, Bool.and_assoc,
      natBeq_comm 0xFF b0, natBeq_comm 0xFE b1]

theorem classify_fst_eq_detect (buf : List Nat) (e : Option Err)
    (he : e = none ∨ e = some Err.eof) :
    (detectUtfClassify buf e).1 = DetectEncoding buf := by
  unfold detectUtfClassify DetectEncoding
  rw [is32BE_eq, is32LE_eq, is8_eq, is16BE_eq, is16LE_eq]
  by_cases h2 : buf.length < 2
  · have h4BE : ¬ (4 ≤ buf.length ∧ utf32BEBOM.isPrefixOf buf = true) := by
      rintro ⟨ha, -⟩; omega
    have h4LE : ¬ (4 ≤ buf.length ∧ utf32LEBOM.isPrefixOf buf = true) := by
      rintro ⟨ha, -⟩; omega
    have h3 : ¬ (2 < buf.length ∧ utf8BOM.isPrefixOf buf = true) := by
      rintro ⟨ha, -⟩; omega
    have hcond : (e ≠ none ∧ e ≠ some Err.eof) ∨ buf.length < 2 := Or.inr h2
    simp only [if_pos h2, if_neg h4BE, if_neg h4LE, if_neg h3, if_pos hcond]
  · have hcond : ¬ ((e ≠ none ∧ e ≠ some Err.eof) ∨ buf.length < 2) := by
      rcases he with rfl | rfl <;> simp [h2]
    simp only [if_neg h2, if_neg hcond]
    split_ifs <;> first | rfl | (exfalso; simp_all <;> omega)

theorem DetectEncoding_take4 (d : List Nat) :
    DetectEncoding (d.take 4) = DetectEncoding d := by
  rcases Nat.lt_or_ge d.length 4 with h | h
  · rw [List.take_of_length_le (by omega)]
  · have hlen : (d.take 4).length = 4 := by simp [List.length_take]; omega
    unfold DetectEncoding
    rw [isPrefixOf_take utf32BEBOM d 4 (by decide),
      isPrefixOf_take utf32LEBOM d 4 (by decide),
      isPrefixOf_take utf8BOM d 4 (by decide),
      isPrefixOf_take utf16BEBOM d 4 (by decide),
      isPrefixOf_take utf16LEBOM d 4 (by decide), hlen]
    rw [if_neg (show ¬ ((4 : Nat) < 2) by omega),
      if_neg (show ¬ (d.length < 2) by omega)]
    simp [show (4 : Nat) ≤ 4 from Nat.le_refl 4, show (3 : Nat) ≤ 4 by omega,
      show 4 ≤ d.length from h, show 3 ≤ d.length by omega]

theorem bomOf_length (E : Encoding) : (bomOf E).length = E.Len := by
  cases E <;> rfl

theorem Skip_src_eq (m : SrcMode) (hm : m = .full ∨ m = .oneByte)
    (d : List Nat) (fe : Err) :
    Skip 10 (.src ⟨m, d, fe⟩) =
      some ({ rd := ⟨m, d.drop 4, fe⟩,
              buf := (detectUtfClassify (d.take 4)
                (if d.length ≤ 4 then some fe else none)).2,
              err := if d.length ≤ 4 then some fe else none,
              enc := (detectUtfClassify (d.take 4)
                (if d.length ≤ 4 then some fe else none)).1 },
            (detectUtfClassify (d.take 4)
              (if d.length ≤ 4 then some fe else none)).1) := by
  simp [Skip, detectUtf, readBOM_slice m hm d fe]

theorem drop_take_append_drop (d : List Nat) (k : Nat)
    (hk : k ≤ (d.take 4).length) :
    (d.take 4).drop k ++ d.drop 4 = d.drop k := by
  conv_rhs => rw [← List.take_append_drop 4 d]
  rw [List.drop_append_eq_append_drop, Nat.sub_eq_zero_of_le hk, List.drop_zero]

theorem readAll_skip_reader (m : SrcMode) (hm : m = .full ∨ m = .oneByte)
    (d : List Nat) (fe : Err) (cap : Nat) (hcap : 1 ≤ cap) :
    readAll (d.length + 2) cap
      { rd := ⟨m, d.drop 4, fe⟩,
        buf := (detectUtfClassify (d.take 4)
          (if d.length ≤ 4 then some fe else none)).2,
        err := if d.length ≤ 4 then some fe else none,
        enc := (detectUtfClassify (d.take 4)
          (if d.length ≤ 4 then some fe else none)).1 } =
      some (d.drop ((detectUtfClassify (d.take 4)
        (if d.length ≤ 4 then some fe else none)).1).Len, fe) := by
  have hk := classify_Len_le (d.take 4) (if d.length ≤ 4 then some fe else none)
  have hsnd := classify_snd (d.take 4) (if d.length ≤ 4 then some fe else none)
  by_cases hlen : d.length ≤ 4
  · rw [readAll, if_pos hlen] at *
    rw [hsnd, List.take_of_length_le hlen,
      List.drop_eq_nil_of_le (show d.length ≤ 4 from hlen)]
    rw [readAllAux_err cap hcap (d.length + 2) _ fe _ _ []
      (by simp only [List.length_drop]; omega)]
    simp
  · rw [readAll, if_neg hlen] at *
    rw [hsnd]
    rw [readAllAux_buf cap hcap m hm (d.length + 2) _ _ fe _ []
      (by simp only [List.length_drop, List.length_take]; omega)]
    rw [List.nil_append, drop_take_append_drop d _ hk]

theorem detect_eq_lookup (b : List Nat) : DetectEncoding b = lookupSpec b := by
  unfold DetectEncoding lookupSpec
  by_cases h2 : b.length < 2
  · simp [h2]
  · have e32BE : (4 ≤ b.length ∧ utf32BEBOM.isPrefixOf b = true) ↔
        (utf32BEBOM.isPrefixOf b = true) :=
      ⟨And.right, fun hp =>
        ⟨by simpa [utf32BEBOM] using isPrefixOf_length_le _ _ hp, hp⟩⟩
    have e32LE : (4 ≤ b.length ∧ utf32LEBOM.isPrefixOf b = true) ↔
        (utf32LEBOM.isPrefixOf b = true) :=
      ⟨And.right, fun hp =>
        ⟨by simpa [utf32LEBOM] using isPrefixOf_length_le _ _ hp, hp⟩⟩
    have e8 : (3 ≤ b.length ∧ utf8BOM.isPrefixOf b = true) ↔
        (utf8BOM.isPrefixOf b = true) :=
      ⟨And.right, fun hp =>
        ⟨by simpa [utf8BOM] using isPrefixOf_length_le _ _ hp, hp⟩⟩
    simp only [if_neg h2, e32BE, e32LE, e8]

theorem detect_marker_isPrefixOf (b : List Nat)
    (hne : DetectEncoding b ≠ .Unknown) :
    (bomOf (DetectEncoding b)).isPrefixOf b = true := by
  rw [detect_eq_lookup] at hne ⊢
  unfold lookupSpec at hne ⊢
  split_ifs at hne ⊢ <;> simp_all [bomOf]

/-! ### Claim theorems -/

/-- C2: for every byte sequence `b`, `DetectEncoding` returns the encoding
whose marker byte sequence is a prefix of `b`, preferring the longest
matching marker (4-byte markers checked before the 3-byte marker, before
2-byte markers; in particular an input beginning `FF FE 00 00` yields
`UTF32LittleEndian` and never `UTF16LittleEndian`), and returns `Unknown`
whenever no marker matches or `b` has fewer than 2 bytes — stated as
equality with the spec-side `lookupSpec` together with the longest-match
instance. -/
theorem C2_detect_longest_match :
    (∀ b : List Nat, DetectEncoding b = lookupSpec b) ∧
    (∀ rest : List Nat,
      DetectEncoding (0xFF :: 0xFE :: 0x00 :: 0x00 :: rest) =
        .UTF32LittleEndian) := by
  refine ⟨detect_eq_lookup, fun rest => ?_⟩
  rw [← DetectEncoding_take4]
  show DetectEncoding [0xFF, 0xFE, 0x00, 0x00] = .UTF32LittleEndian
  decide

/-- C3: a source that always returns zero bytes with no error causes the
BOM-reading loop to fail with `NoProgress` after exactly 100 consecutive
zero-byte reads (fuel 100 suffices, fuel 99 does not), and a read on the
resulting `Reader` returns `(0, ErrNoProgress)` rather than looping
forever. -/
theorem C3_zero_reader_noprogress :
    readBOM 100 ⟨.zero, [], .eof⟩ =
      some ([], some .noProgress, ⟨.zero, [], .eof⟩) ∧
    readBOM 99 ⟨.zero, [], .eof⟩ = none ∧
    (Skip 100 (.src ⟨.zero, [], .eof⟩)).map
        (fun pr => (pr.2, (pr.1.Read 1).1, (pr.1.Read 1).2.1)) =
      some (.Unknown, [], some .noProgress) := by
  refine ⟨by decide, by decide, by decide⟩

/-- C4: for every input buffer `b`, `Trim` returns the detected encoding
paired with `b` with exactly the matched marker's length removed from the
front when detection succeeds, and returns `b` unchanged paired with
`Unknown` when detection yields `Unknown` (the in-place-mutation clause is
vacuous here: the embedding is pure, as is the Go slice expression
`bytes[enc.Len():]`, which never writes to the caller's array). -/
theorem C4_trim_spec (b : List Nat) :
    (Trim b).2 = DetectEncoding b ∧
    (DetectEncoding b = .Unknown → (Trim b).1 = b) ∧
    (DetectEncoding b ≠ .Unknown →
      (Trim b).1 = b.drop (DetectEncoding b).Len ∧
      bomOf (DetectEncoding b) ++ (Trim b).1 = b) := by
  refine ⟨?_, ?_, ?_⟩
  · simp only [Trim]
    split_ifs <;> rfl
  · intro h; simp [Trim, h]
  · intro h
    have hp := detect_marker_isPrefixOf b h
    have hdec := isPrefixOf_decomp _ _ hp
    rw [bomOf_length] at hdec
    refine ⟨by simp [Trim, h], ?_⟩
    simp only [Trim, if_neg h]
    exact hdec

/-- Witness for C4 at a concrete input: a UTF-8 marker followed by `0x68`. -/
theorem C4_trim_spec_witness :
    DetectEncoding [0xEF, 0xBB, 0xBF, 0x68] ≠ .Unknown ∧
    ((Trim [0xEF, 0xBB, 0xBF, 0x68]).1 =
      ([0xEF, 0xBB, 0xBF, 0x68] : List Nat).drop
        (DetectEncoding [0xEF, 0xBB, 0xBF, 0x68]).Len ∧
    bomOf (DetectEncoding [0xEF, 0xBB, 0xBF, 0x68]) ++
      (Trim [0xEF, 0xBB, 0xBF, 0x68]).1 = [0xEF, 0xBB, 0xBF, 0x68]) :=
  ⟨by decide, (C4_trim_spec [0xEF, 0xBB, 0xBF, 0x68]).2.2 (by decide)⟩

/-- C9: in all three reader revisions, a read with a zero-capacity
destination returns `(0, nil)` immediately and leaves the reader (detection
flag, detected encoding, buffered bytes, wrapped source) completely
unchanged. -/
theorem C9_zero_capacity_noop :
    (∀ r : Reader, r.Read 0 = ([], none, r)) ∧
    (∀ r : P1.Reader, r.Read 0 = ([], none, r)) ∧
    (∀ r : P2.Reader, r.Read 0 = ([], none, r)) :=
  ⟨fun _ => rfl, fun _ => rfl, fun _ => rfl⟩

/-- C10: `Skip` applied to a value that is already a `*Reader` returns that
identical `Reader` paired with its stored encoding, running no detection and
consuming nothing from any source (the returned reader, including its
wrapped source state, is the argument itself). -/
theorem C10_skip_on_reader (fuel : Nat) (b : Reader) :
    Skip fuel (.rdr b) = some (b, b.enc) := rfl

/-- C6: for every source that signals end-of-data before 2 bytes are
available (0 or 1 bytes of content), detection yields `Unknown` and the
partial bytes are delivered to the caller unchanged — a too-short prefix is
treated as data, not as a marker or an error. -/
theorem C6_short_input_is_data (m : SrcMode) (hm : m = .full ∨ m = .oneByte)
    (d : List Nat) (hd : d.length < 2) (cap : Nat) (hcap : 1 ≤ cap) :
    (Skip 10 (.src ⟨m, d, .eof⟩)).map
        (fun pr => (pr.2, readAll (d.length + 2) cap pr.1)) =
      some (.Unknown, some (d, .eof)) := by
  rw [Skip_src_eq m hm d .eof]
  simp only [Option.map_some']
  rw [readAll_skip_reader m hm d .eof cap hcap]
  have he : (if d.length ≤ 4 then some Err.eof else none) = some Err.eof :=
    if_pos (by omega)
  rw [he, classify_fst_eq_detect _ _ (Or.inr rfl), DetectEncoding_take4]
  have hu : DetectEncoding d = .Unknown := by
    unfold DetectEncoding; rw [if_pos hd]
  rw [hu]
  simp [Encoding.Len]

/-- Witness for C6: a single byte `0x68` delivered through a one-byte-at-a-
time source. -/
theorem C6_short_input_is_data_witness :
    (([0x68] : List Nat).length < 2 ∧ 1 ≤ 1) ∧
    (Skip 10 (.src ⟨.oneByte, [0x68], .eof⟩)).map
        (fun pr => (pr.2, readAll (([0x68] : List Nat).length + 2) 1 pr.1)) =
      some (.Unknown, some ([0x68], .eof)) :=
  ⟨⟨by decide, by decide⟩,
   C6_short_input_is_data .oneByte (Or.inr rfl) [0x68] (by decide) 1 (by decide)⟩

/-- C1 (amended): for every payload `p` and encoding `E` such that detecting
on `marker(E) ++ p` still yields `E` (the original claim's hypothesis — that
no recognized marker is a prefix of `p` — is not enough, see the
counterexample), reading all bytes from a `Reader` produced by `Skip` over a
source containing `marker(E) ++ p` yields exactly `p`, whether the source
delivers its bytes one at a time or all at once, and the reader's stored
encoding equals `E` from construction on (hence after the first read). -/
theorem C1_streaming_equivalence (m : SrcMode) (hm : m = .full ∨ m = .oneByte)
    (p : List Nat) (E : Encoding)
    (hdet : DetectEncoding (bomOf E ++ p) = E) (cap : Nat) (hcap : 1 ≤ cap) :
    (Skip 10 (.src ⟨m, bomOf E ++ p, .eof⟩)).map
        (fun pr => (pr.2, pr.1.enc, readAll ((bomOf E ++ p).length + 2) cap pr.1)) =
      some (E, E, some (p, .eof)) := by
  rw [Skip_src_eq m hm _ .eof]
  simp only [Option.map_some']
  rw [readAll_skip_reader m hm _ .eof cap hcap]
  have henc : (detectUtfClassify ((bomOf E ++ p).take 4)
      (if (bomOf E ++ p).length ≤ 4 then some Err.eof else none)).1 = E := by
    rw [classify_fst_eq_detect _ _ (by split_ifs <;> simp),
      DetectEncoding_take4, hdet]
  rw [henc]
  have hdrop : (bomOf E ++ p).drop E.Len = p := by
    rw [← bomOf_length E, List.drop_left]
  rw [hdrop]

/-- Witness for C1 at a concrete input: a UTF-8 marker followed by `0x68`,
delivered one byte at a time into a one-byte destination. -/
theorem C1_streaming_equivalence_witness :
    (DetectEncoding (bomOf .UTF8 ++ [0x68]) = .UTF8 ∧ 1 ≤ 1) ∧
    (Skip 10 (.src ⟨.oneByte, bomOf .UTF8 ++ [0x68], .eof⟩)).map
        (fun pr => (pr.2, pr.1.enc,
          readAll ((bomOf .UTF8 ++ [0x68]).length + 2) 1 pr.1)) =
      some (.UTF8, .UTF8, some ([0x68], .eof)) :=
  ⟨⟨by decide, by decide⟩,
   C1_streaming_equivalence .oneByte (Or.inr rfl) [0x68] .UTF8 (by decide) 1
     (by decide)⟩

/-- C1 counterexample: the payload `[0x00, 0x00]` has no recognized marker
as its own prefix, yet wrapping a source containing
`marker(UTF16LittleEndian) ++ [0x00, 0x00]` detects `UTF32LittleEndian`
(the four bytes form the longer UTF-32LE marker) and delivers an empty
payload — so the claim as stated, which only excludes payloads carrying a
marker prefix, is false. -/
theorem C1_counterexample :
    (utf8BOM.isPrefixOf [0x00, 0x00] = false ∧
     utf16BEBOM.isPrefixOf [0x00, 0x00] = false ∧
     utf16LEBOM.isPrefixOf [0x00, 0x00] = false ∧
     utf32BEBOM.isPrefixOf [0x00, 0x00] = false ∧
     utf32LEBOM.isPrefixOf [0x00, 0x00] = false) ∧
    (Skip 10 (.src ⟨.full, bomOf .UTF16LittleEndian ++ [0x00, 0x00], .eof⟩)).map
        (fun pr => (pr.2, pr.1.enc,
          readAll ((bomOf .UTF16LittleEndian ++ [0x00, 0x00]).length + 2) 1 pr.1)) =
      some (.UTF32LittleEndian, .UTF32LittleEndian, some ([], .eof)) ∧
    Encoding.UTF32LittleEndian ≠ Encoding.UTF16LittleEndian ∧
    ([] : List Nat) ≠ [0x00, 0x00] := by
  refine ⟨by decide, by decide, by decide, by decide⟩

/-- C7 (amended): in the `utfbom.go` `Reader`, every wrapped-source error is
surfaced to the caller exactly as produced — unmodified and untagged —
whether it was encountered during the construction-time lookahead (source
content of at most 4 bytes, error stored and returned by the first read) or
during ordinary pass-through after detection (longer content, error returned
by a delegated read).  Only the earlier `bufio`-based revision wraps
lookahead errors with `ErrRead`. -/
theorem C7_errors_unmodified (m : SrcMode) (hm : m = .full ∨ m = .oneByte)
    (d : List Nat) (k : Nat) (cap : Nat) (hcap : 1 ≤ cap) :
    (Skip 10 (.src ⟨m, d, Err.other k⟩)).map
        (fun pr => (readAll (d.length + 2) cap pr.1).map Prod.snd) =
      some (some (Err.other k)) := by
  rw [Skip_src_eq m hm d (Err.other k)]
  simp only [Option.map_some']
  rw [readAll_skip_reader m hm d (Err.other k) cap hcap]
  rfl

/-- Witness for C7: the two-byte content `FE FF` followed by an
`io.ErrClosedPipe`-style error (test case 12 of the repository). -/
theorem C7_errors_unmodified_witness :
    1 ≤ 1 ∧
    (Skip 10 (.src ⟨.full, [0xFE, 0xFF], Err.other 12⟩)).map
        (fun pr => (readAll (([0xFE, 0xFF] : List Nat).length + 2) 1 pr.1).map
          Prod.snd) =
      some (some (Err.other 12)) :=
  ⟨by decide,
   C7_errors_unmodified .full (Or.inl rfl) [0xFE, 0xFF] 12 1 (by decide)⟩

/-- C7 counterexample: a source error during the lookahead phase is returned
by the first read exactly as the source produced it (`other 0`), not wrapped
with a distinguishing marker — `errors.Is(err, ErrRead)` on the returned
error is false — refuting the claim that lookahead-phase errors are
wrapped/tagged. -/
theorem C7_counterexample :
    (Skip 10 (.src ⟨.full, [], Err.other 0⟩)).map
        (fun pr => ((pr.1.Read 1).1, (pr.1.Read 1).2.1)) =
      some ([], some (Err.other 0)) ∧
    some (Err.other 0) ≠ some (Err.joined Err.errRead (Err.other 0)) ∧
    P1.errIs (Err.other 0) Err.errRead = false := by
  refine ⟨by decide, by decide, by decide⟩

theorem srcRead_len_le (s : Src) (cap : Nat) :
    (srcRead s cap).1.length ≤ cap := by
  rcases s with ⟨m, d, fe⟩
  cases m
  · simp only [srcRead, sliceRead]
    split_ifs <;> simp [List.length_take] <;> omega
  · simp only [srcRead, sliceRead]
    split_ifs <;> simp [List.length_take] <;> omega
  · simp [srcRead]

theorem Read_len_le (r : Reader) (cap : Nat) :
    (r.Read cap).1.length ≤ cap := by
  rcases r with ⟨s, buf, err, enc⟩
  unfold Reader.Read
  split_ifs with h
  · simp
  · rcases buf with _ | l
    · rcases err with _ | e
      · simpa using srcRead_len_le s cap
      · simp
    · simp only
      simp [List.length_take]

theorem Read_err_eof (r : Reader) (cap : Nat)
    (herr : r.err = none ∨ r.err = some .eof) (hfe : r.rd.finalErr = .eof) :
    ∀ e, (r.Read cap).2.1 = some e → e = .eof := by
  rcases r with ⟨⟨m, d, fe⟩, buf, err, enc⟩
  simp only at herr hfe
  subst hfe
  intro e he
  by_cases h : cap = 0
  · unfold Reader.Read at he
    rw [if_pos h] at he
    simp at he
  · unfold Reader.Read at he
    rw [if_neg h] at he
    rcases buf with _ | l
    · rcases herr with herr | herr <;> subst herr
      · cases m
        · simp only [srcRead, sliceRead] at he
          split_ifs at he <;> simp_all
        · simp only [srcRead, sliceRead] at he
          split_ifs at he <;> simp_all
        · simp [srcRead] at he
      · simp at he
        exact he.symm
    · simp at he

/-- C5 (amended): the `utfbom.go` `Reader` (and likewise the `bufio`-based
revision) services a first read with destination capacity `1 ≤ C < 4`
without any minimum-buffer requirement: the read never fails with a
short-buffer error, delivers at most `C` post-marker bytes, and the excess
is retained internally so that reading on with the same small capacity still
produces the entire post-marker payload.  The scratch-buffer revision (`P2`)
instead rejects such reads — see the counterexample. -/
theorem C5_small_destination_ok (m : SrcMode) (hm : m = .full ∨ m = .oneByte)
    (d : List Nat) (cap : Nat) (hcap : 1 ≤ cap) (hcap4 : cap < 4) :
    ∃ r : Reader, ∃ enc : Encoding,
      Skip 10 (.src ⟨m, d, .eof⟩) = some (r, enc) ∧
      (r.Read cap).1.length ≤ cap ∧
      (∀ e, (r.Read cap).2.1 = some e → hasShortBuffer e = false) ∧
      readAll (d.length + 2) cap r = some (d.drop enc.Len, .eof) := by
  refine ⟨_, _, Skip_src_eq m hm d .eof, Read_len_le _ cap, ?_,
    readAll_skip_reader m hm d .eof cap hcap⟩
  intro e he
  have hef := Read_err_eof _ cap ?herr ?hfe e he
  · rw [hef]; rfl
  case herr => simp only; split_ifs <;> simp
  case hfe => rfl

/-- Witness for C5: a UTF-8 marker plus two payload bytes read through a
one-byte destination. -/
theorem C5_small_destination_ok_witness :
    (1 ≤ 1 ∧ 1 < 4) ∧
    (∃ r : Reader, ∃ enc : Encoding,
      Skip 10 (.src ⟨.full, [0xEF, 0xBB, 0xBF, 0x68, 0x65], .eof⟩) =
        some (r, enc) ∧
      (r.Read 1).1.length ≤ 1 ∧
      (∀ e, (r.Read 1).2.1 = some e → hasShortBuffer e = false) ∧
      readAll (([0xEF, 0xBB, 0xBF, 0x68, 0x65] : List Nat).length + 2) 1 r =
        some (([0xEF, 0xBB, 0xBF, 0x68, 0x65] : List Nat).drop enc.Len, .eof)) :=
  ⟨⟨by decide, by decide⟩,
   C5_small_destination_ok .full (Or.inl rfl) [0xEF, 0xBB, 0xBF, 0x68, 0x65] 1
     (by decide) (by decide)⟩

/-- C5 counterexample: the scratch-buffer revision's fresh `Reader` rejects
a first read with a 1-byte destination (1 < 4) outright, returning zero
bytes and `errors.Join(ErrInitBufferReadError, io.ErrShortBuffer)` — a
short-buffer failure merely because the destination is smaller than the
4-byte lookahead window, refuting the claim for that revision. -/
theorem C5_counterexample :
    (1 : Nat) < 4 ∧
    ((P2.NewReader ⟨.full, [0xEF, 0xBB, 0xBF, 0x68], .eof⟩).Read 1).1 = [] ∧
    ((P2.NewReader ⟨.full, [0xEF, 0xBB, 0xBF, 0x68], .eof⟩).Read 1).2.1 =
      some (Err.joined .initBufferReadError .shortBuffer) ∧
    hasShortBuffer (Err.joined .initBufferReadError .shortBuffer) = true := by
  refine ⟨by decide, by decide, by decide, by decide⟩

theorem P1_onceBody_onceDone (r : P1.Reader) :
    ((P1.onceBody r).2).onceDone = true := by
  unfold P1.onceBody
  by_cases ho : r.onceDone
  · simp [ho]
  · simp only [ho, Bool.false_eq_true, if_false, if_neg]
    rcases hp : (P1.bpeek 101 4 r.rd).2.1 with _ | e
    · simp only [hp]
      simp only [P1.detectBody]
      split_ifs <;> rfl
    · simp only [hp]
      split_ifs with hiseof
      · simp only [P1.detectBody]
        split_ifs <;> rfl
      · rfl

theorem P1_onceBody_done (r : P1.Reader) (h : r.onceDone = true) :
    P1.onceBody r = (none, r) := by
  unfold P1.onceBody
  rw [if_pos h]

/-- C8: the lazy `Reader` of the `bufio`-based revision starts with
`Enc = Unknown` and its detection flag unset; a zero-capacity read leaves it
untouched (so `Enc` stays `Unknown` until a substantive read runs
detection); any read with positive capacity leaves the detection flag set;
and once the flag is set every further read preserves `Enc` and the flag —
the accessor is the pure field projection `P1.Reader.Enc`, so consulting it
performs no detection by construction. -/
theorem C8_enc_accessor (s : Src) (r : P1.Reader) (cap : Nat) :
    ((P1.NewReader s).Enc = .Unknown ∧ (P1.NewReader s).onceDone = false) ∧
    P1.Reader.Read r 0 = ([], none, r) ∧
    (1 ≤ cap → ((r.Read cap).2.2).onceDone = true) ∧
    (r.onceDone = true →
      ((r.Read cap).2.2).Enc = r.Enc ∧ ((r.Read cap).2.2).onceDone = true) := by
  refine ⟨⟨rfl, rfl⟩, rfl, ?_, ?_⟩
  · intro hcap
    unfold P1.Reader.Read
    rw [if_neg (by omega)]
    rcases ho : (P1.onceBody r).1 with _ | e
    · have hdone := P1_onceBody_onceDone r
      simp only [ho, hdone]
    · have hdone := P1_onceBody_onceDone r
      simp only [ho, hdone]
  · intro h
    by_cases hc : cap = 0
    · subst hc
      unfold P1.Reader.Read
      rw [if_pos rfl]
      exact ⟨rfl, h⟩
    · unfold P1.Reader.Read
      rw [if_neg hc, P1_onceBody_done r h]
      exact ⟨rfl, h⟩

/-- Witness for C8: a fresh reader over a 2-byte source; its first 1-byte
read marks detection as done. -/
theorem C8_enc_accessor_witness :
    1 ≤ 1 ∧
    (((P1.NewReader ⟨.full, [0x68, 0x65], .eof⟩).Read 1).2.2).onceDone = true :=
  ⟨by decide,
   (C8_enc_accessor ⟨.full, [0x68, 0x65], .eof⟩
     (P1.NewReader ⟨.full, [0x68, 0x65], .eof⟩) 1).2.2.1 (by decide)⟩
